import Mathlib

/-!
Shallow embedding of `fitting/models.py`: the Fitting edge store, the
in-memory mapping (`Fitting.mapping`), the `PipeMapping` cache, the
`PipeElement` mix-in operations (`sources`/`sinks`/`pipe_to`/`no_sources`/
`iter_descendants`), the `cache` context manager, and the
`unlink_fittings_on_deletion` pre-delete signal handler.

Modelling conventions, used throughout:
* A Django `ContentType` is modelled by its integer id (`kind`); a generic
  endpoint (`source_type`/`source_id` or `sink_type`/`sink_id`) is an
  `EntityRef` = (kind, id).
* The database is a `World`: the list of `Fitting` rows, the content
  types whose model class is still available (`registeredKinds`), and the
  set of existing ("alive") entity rows.  A `GenericForeignKey`
  dereference returns the object when the row exists, returns `None` when
  the row is gone (the descriptor swallows `ObjectDoesNotExist`), and
  raises `AttributeError` only when the content type's model class is
  gone; `resolve` names the successful case.
* Query-set result order (`order_by`) is not modelled: every claim under
  consideration is about result sets, termination or query counts, never
  about order.
* Python's `fitting_type or DEFAULT_FITTING_TYPE` defaulting (`None` and
  `0` are both falsy) is modelled by `ftOr` over `Nat`, with `0` playing
  the role of "not supplied".
* A Django row delete (`f.delete()`) is modelled by filtering the row out;
  rows are unique in a real database (primary keys), so removing all
  structural copies is the same operation.
-/

namespace Models

/-- A generic endpoint reference: content-type id plus primary key,
as stored in `source_type`/`source_id` and `sink_type`/`sink_id`. -/
structure EntityRef where
  kind : Nat
  id : Nat
deriving DecidableEq

/-- One `Fitting` row. Its identity is the `unique_together` tuple
`('fitting_type','source_id','source_type','sink_id','sink_type')`
(models.py lines 22-25); the surrogate `id` column plays no role in any
claim and is omitted. -/
structure Edge where
  fitting_type : Nat
  source : EntityRef
  sink : EntityRef
deriving DecidableEq

/-- The backing store: `Fitting` rows, registered content types, and the
existing entity rows of every generic model. -/
structure World where
  edges : List Edge
  registeredKinds : List Nat
  alive : List EntityRef
deriving DecidableEq

/-- `Fitting.DEFAULT_FITTING_TYPE = 1` (models.py line 26). -/
def DEFAULT_FITTING_TYPE : Nat := 1

/-- Python's `fitting_type or DEFAULT_FITTING_TYPE`: `None`/`0` are falsy
and fall back to the default.  `0` stands for "not supplied". -/
def ftOr (ft : Nat) : Nat :=
  if ft = 0 then DEFAULT_FITTING_TYPE else ft

/-- The successful case of a generic-foreign-key dereference: the
content type's model class is available and the referenced row exists;
the result is the referenced object (identified with its reference).
A read yields an entity exactly in this case. -/
def resolve (w : World) (r : EntityRef) : Option EntityRef :=
  if r.kind ∈ w.registeredKinds ∧ r ∈ w.alive then some r else none

/-- `Fitting.objects.create(...)` under the `unique_together` constraint:
raises `IntegrityError` (modelled as `Except.error ()`) when a row with
the same (fitting_type, source, sink) identity already exists. -/
def createFitting (w : World) (ft : Nat) (src snk : EntityRef) :
    Except Unit (Edge × World) :=
  let e : Edge := ⟨ft, src, snk⟩
  if e ∈ w.edges then Except.error ()
  else Except.ok (e, { w with edges := w.edges ++ [e] })

/-- `Fitting.sources(instance, fitting_type)` (models.py 77-85): the rows
whose sink is `inst` in the given namespace.  `order_by` not modelled
(no claim concerns order). -/
def Fitting.sources (w : World) (ft : Nat) (inst : EntityRef) : List Edge :=
  w.edges.filter (fun e => e.fitting_type = ftOr ft ∧ e.sink = inst)

/-- `Fitting.sinks(instance, fitting_type)` (models.py 86-94): the rows
whose source is `inst` in the given namespace. -/
def Fitting.sinks (w : World) (ft : Nat) (inst : EntityRef) : List Edge :=
  w.edges.filter (fun e => e.fitting_type = ftOr ft ∧ e.source = inst)

/-- `queryset.delete()` for the `Fitting.sinks` queryset, as used by
`PipeElement.pipe_to` when `clear` and by `detach_sinks`. -/
def deleteSinkRows (w : World) (ft : Nat) (inst : EntityRef) : World :=
  { w with edges :=
      w.edges.filter (fun e => ¬(e.fitting_type = ftOr ft ∧ e.source = inst)) }

/-- `f.delete()` on a single `Fitting` row. -/
def deleteEdge (w : World) (f : Edge) : World :=
  { w with edges := w.edges.filter (fun e => e ≠ f) }

/-- `PipeElement.pipe_to(self, other, clear, fitting_type)`
(models.py 243-254): when `clear`, first delete all outgoing rows of
`self` in the namespace, then create the new row. -/
def PipeElement.pipe_to (w : World) (self other : EntityRef) (clear : Bool)
    (ft : Nat) : Except Unit (Edge × World) :=
  let w' := if clear then deleteSinkRows w ft self else w
  createFitting w' (ftOr ft) self other

/-- Python `dict.setdefault(k, []).append(v)` on an association list:
append `v` to the list stored under the first occurrence of key `k`,
adding the key at the end when absent. -/
def setdefaultAppend {α β : Type} [DecidableEq α] :
    List (α × List β) → α → β → List (α × List β)
  | [], k, v => [(k, [v])]
  | (k', vs) :: rest, k, v =>
    if k' = k then (k', vs ++ [v]) :: rest
    else (k', vs) :: setdefaultAppend rest k v

/-- Python `dict.get(k, [])` on an association list. -/
def lookupList {α β : Type} [DecidableEq α] : List (α × List β) → α → List β
  | [], _ => []
  | (k', vs) :: rest, k => if k' = k then vs else lookupList rest k

/-- Python `dict.get(k)` / `dict[k]` on an association list. -/
def alistFind {α β : Type} [DecidableEq α] : List (α × β) → α → Option β
  | [], _ => none
  | (k', v) :: rest, k => if k' = k then some v else alistFind rest k

/-- The `type_map` loop of `Fitting.mapping` (models.py 106-109): for each
record append the sink id under the sink's content type, then the source
id under the source's content type. -/
def typeMap (records : List Edge) : List (Nat × List Nat) :=
  records.foldl
    (fun tm r =>
      setdefaultAppend (setdefaultAppend tm r.sink.kind r.sink.id)
        r.source.kind r.source.id)
    []

/-- One batched backend fetch: `model_cls.objects.filter(pk__in=ids)` for
the model class of content type `k`. -/
def fetchKind (w : World) (k : Nat) (ids : List Nat) : List EntityRef :=
  w.alive.filter (fun e => e.kind = k ∧ e.id ∈ ids)

/-- The `object_map` loop of `Fitting.mapping` (models.py 114-127)
together with a count of backend fetch queries issued.  The count starts
at 1 for the edge-table scan producing `records` (the queryset caches its
result, so iterating it twice runs one query).  Per the spec's interface
model, resolving content-type ids to model classes is a TypeRegistry
(ContentType registry) lookup, not a counted backend fetch; a content
type that no longer resolves is logged and skipped without a query. -/
def objectMapCounted (w : World) (tm : List (Nat × List Nat)) :
    List ((Nat × Nat) × EntityRef) × Nat :=
  tm.foldl
    (fun acc p =>
      if p.1 ∈ w.registeredKinds then
        (acc.1 ++ (fetchKind w p.1 p.2).map (fun t => ((p.1, t.id), t)),
         acc.2 + 1)
      else acc)
    ([], 1)

/-- The `final_mapping` loop of `Fitting.mapping` (models.py 129-134):
for each record whose both endpoints are present in `object_map`, append
the sink object under the source object. -/
def finalMapping (om : List ((Nat × Nat) × EntityRef)) (records : List Edge) :
    List (EntityRef × List EntityRef) :=
  records.foldl
    (fun fm r =>
      match alistFind om (r.source.kind, r.source.id),
            alistFind om (r.sink.kind, r.sink.id) with
      | some s, some k => setdefaultAppend fm s k
      | _, _ => fm)
    []

/-- `Fitting.mapping(fitting_type)` (models.py 95-135), paired with the
number of backend fetch queries it issues. -/
def Fitting.mappingCounted (w : World) (ft : Nat) :
    List (EntityRef × List EntityRef) × Nat :=
  let records := w.edges.filter (fun e => e.fitting_type = ftOr ft)
  let tm := typeMap records
  let omc := objectMapCounted w tm
  (finalMapping omc.1 records, omc.2)

/-- `Fitting.mapping(fitting_type)`: the in-memory source → [sinks]
mapping. -/
def Fitting.mapping (w : World) (ft : Nat) : List (EntityRef × List EntityRef) :=
  (Fitting.mappingCounted w ft).1

/-- `PipeMapping` (models.py 137-151): the materialized mapping, its
reverse index, and the namespace it was built for. -/
structure PipeMapping where
  fitting_type : Nat
  mapping : List (EntityRef × List EntityRef)
  reverse : List (EntityRef × List EntityRef)
deriving DecidableEq

/-- The reverse-index loop of `PipeMapping.__init__` (models.py 144-147):
for each (source, sinks) pair and each sink, append the source under the
sink. -/
def buildReverse (m : List (EntityRef × List EntityRef)) :
    List (EntityRef × List EntityRef) :=
  m.foldl (fun rev p => p.2.foldl (fun rv snk => setdefaultAppend rv snk p.1) rev)
    []

/-- `PipeMapping(mapping=None, fitting_type=...)`: materialize the
namespace and build the reverse index. -/
def PipeMapping.make (w : World) (ft : Nat) : PipeMapping :=
  let m := Fitting.mapping w ft
  ⟨ftOr ft, m, buildReverse m⟩

/-- `PipeMapping.sources(record)` (models.py 148-149): answered from the
reverse index; a record with a falsy id (unsaved) gets `[]`. -/
def PipeMapping.sources (pm : PipeMapping) (record : EntityRef) :
    List EntityRef :=
  if record.id ≠ 0 then lookupList pm.reverse record else []

/-- `PipeMapping.sinks(record)` (models.py 150-151): answered from the
forward mapping; a record with a falsy id gets `[]`. -/
def PipeMapping.sinks (pm : PipeMapping) (record : EntityRef) :
    List EntityRef :=
  if record.id ≠ 0 then lookupList pm.mapping record else []

/-- The uncached body of `PipeElement.sources` (models.py 213-219): walk
the matching rows and append `f.source` for each.  The
`GenericForeignKey` dereference returns the object when the row exists
and returns `None` when the row is gone (the descriptor swallows its
`ObjectDoesNotExist`), so a dead source row appends `none` to the
result; only when the content type's model class itself is gone does
the dereference raise `AttributeError`, taking the `except` branch that
deletes the row instead.  The function is total: no error escapes the
caller. -/
def PipeElement.sourcesUncached (w : World) (ft : Nat) (self : EntityRef) :
    List (Option EntityRef) × World :=
  (Fitting.sources w ft self).foldl
    (fun acc f =>
      if f.source.kind ∈ w.registeredKinds then
        (acc.1 ++ [if f.source ∈ w.alive then some f.source else none],
         acc.2)
      else (acc.1, deleteEdge acc.2 f))
    ([], w)

/-- The uncached body of `PipeElement.sinks` (models.py 227-233):
symmetric to `sourcesUncached`, dereferencing each row's sink — the
object when the row exists, `None` when only the row is gone, and the
`AttributeError`-then-delete branch only for a vanished model class. -/
def PipeElement.sinksUncached (w : World) (ft : Nat) (self : EntityRef) :
    List (Option EntityRef) × World :=
  (Fitting.sinks w ft self).foldl
    (fun acc f =>
      if f.sink.kind ∈ w.registeredKinds then
        (acc.1 ++ [if f.sink ∈ w.alive then some f.sink else none],
         acc.2)
      else (acc.1, deleteEdge acc.2 f))
    ([], w)

/-- `PipeElement.sources(fitting_type)` (models.py 208-219): answered
from the installed `PipeMapping` when one is active for the requested
namespace, otherwise from the store.  The cached answer holds resolved
objects only; `map some` embeds it in the method's common result type,
whose uncached elements can be `None`. -/
def PipeElement.sources (w : World) (pipe_mapping : Option PipeMapping)
    (ft : Nat) (self : EntityRef) : List (Option EntityRef) × World :=
  match pipe_mapping with
  | some pm =>
    if pm.fitting_type = ftOr ft then ((pm.sources self).map some, w)
    else PipeElement.sourcesUncached w ft self
  | none => PipeElement.sourcesUncached w ft self

/-- `PipeElement.sinks(fitting_type)` (models.py 222-233): cache-aware
like `PipeElement.sources`. -/
def PipeElement.sinks (w : World) (pipe_mapping : Option PipeMapping)
    (ft : Nat) (self : EntityRef) : List (Option EntityRef) × World :=
  match pipe_mapping with
  | some pm =>
    if pm.fitting_type = ftOr ft then ((pm.sinks self).map some, w)
    else PipeElement.sinksUncached w ft self
  | none => PipeElement.sinksUncached w ft self

/-- The entities `iter_descendants` recurses into from `e`: the resolved
elements of the uncached `self.sinks(fitting_type)` answer.  A `none`
element (dangling row) would make the real generator fail as soon as it
recurses into it, so descendant traversal is meaningful over live
endpoints only, which the resolved list captures; the loop's possible
row deletions concern only rows that contribute nothing to it, so the
store is held fixed across the walk. -/
def neighborSinks (w : World) (ft : Nat) (e : EntityRef) : List EntityRef :=
  (PipeElement.sinksUncached w ft e).1.filterMap id

/-- The recursion of `PipeElement.iter_descendants` (models.py 287-294):
walk the sink list; yield each sink not yet seen, add it to `seen`, and
recurse into it with the same shared `seen` set before moving to the next
sibling.  Returns the yielded list and the final `seen`.  `fuel` is a
step budget making the recursion structural; `none` means the budget ran
out (shown never to happen for the fuel used by `descendants`). -/
def iterDescAux (w : World) (ft : Nat) :
    Nat → List EntityRef → List EntityRef →
    Option (List EntityRef × List EntityRef)
  | 0, _, _ => none
  | _ + 1, [], seen => some ([], seen)
  | fuel + 1, s :: rest, seen =>
    if s ∈ seen then iterDescAux w ft fuel rest seen
    else
      match iterDescAux w ft fuel (neighborSinks w ft s) (s :: seen) with
      | none => none
      | some (sub, seen₁) =>
        match iterDescAux w ft fuel rest seen₁ with
        | none => none
        | some (tail, seen₂) => some (s :: (sub ++ tail), seen₂)

/-- Fuel sufficient for `iterDescAux` to finish on any input (proved
below): every yielded entity is the sink of some row, so at most
`edges.length` entities can enter `seen`. -/
def descFuel (w : World) : Nat := (w.edges.length + 1) * (w.edges.length + 2)

/-- `PipeElement.descendants(fitting_type)` (models.py 295-296):
`list(self.iter_descendants(fitting_type))`, starting with an empty
`seen` set (the starting element itself is not pre-seeded). -/
def PipeElement.descendants (w : World) (ft : Nat) (e : EntityRef) :
    Option (List EntityRef) :=
  (iterDescAux w ft (descFuel w) (neighborSinks w ft e) []).map Prod.fst

/-- Python attribute lookup on a `Fitting` row: the model defines
`fitting_type`, `source_type_id`, `source_id`, `sink_type_id` and
`sink_id`; any other attribute name raises `AttributeError` (`none`). -/
def Edge.getattr (f : Edge) : String → Option Nat
  | "fitting_type" => some f.fitting_type
  | "source_type_id" => some f.source.kind
  | "source_id" => some f.source.id
  | "sink_type_id" => some f.sink.kind
  | "sink_id" => some f.sink.id
  | _ => none

/-- `PipeElement.no_sources(fitting_type)` (models.py 266-275): collect
the rows whose sink type is this kind in the namespace, read
`f.target_id` off each of them, and exclude those ids from the kind's
table.  `Fitting` has no `target_id` attribute, so the comprehension
raises `AttributeError` on the first row. -/
def PipeElement.no_sources (w : World) (kind ft : Nat) :
    Except Unit (List EntityRef) := do
  let maps := w.edges.filter
    (fun f => f.sink.kind = kind ∧ f.fitting_type = ftOr ft)
  let ids ← maps.mapM (fun f =>
    match f.getattr "target_id" with
    | some i => Except.ok i
    | none => Except.error ())
  Except.ok ((w.alive.filter (fun e => e.kind = kind)).filter
    (fun e => e.id ∉ ids))

/-- The entry half of the `cache` context manager (models.py 181-187):
when no `PipeMapping` is installed on `PipeElement._pipe_mapping`
(falsy `None`), materialize and install one and remember `delete = true`;
otherwise reuse the installed one with `delete = false`.  The third
component counts materializations performed by this entry (1 or 0). -/
def cache_enter (w : World) (ft : Nat) (st : Option PipeMapping) :
    Option PipeMapping × Bool × Nat :=
  match st with
  | none => (some (PipeMapping.make w ft), true, 1)
  | some pm => (some pm, false, 0)

/-- The exit half of the `cache` context manager on normal completion
(models.py 189-193): reset `_pipe_mapping` to `None` only when this
entry installed it. -/
def cache_exit (st : Option PipeMapping) (delete : Bool) :
    Option PipeMapping :=
  if delete then none else st

/-- The circumstances of one `pre_delete` signal dispatch, as seen by
`unlink_fittings_on_deletion`: whether the instance is marked
`no_fittings`, whether it is a `PipeElement` model, and which of the
fallible steps raise. -/
structure DeleteCtx where
  no_fittings : Bool
  is_pipe_element : Bool
  hook_raises : Bool
  ct_raises : Bool
  pk_is_int : Bool
  delete_raises : Bool
deriving DecidableEq

/-- The two `Fitting.objects.filter(...).delete()` calls of the signal
handler (models.py 327-328): remove every row with the instance as
source, then every row with it as sink — no `fitting_type` filter, so
across all namespaces.  `fail` models a backend error raised there. -/
def cascadeDeleteRows (w : World) (ref : EntityRef) (fail : Bool) :
    Except Unit World :=
  if fail then Except.error ()
  else
    let kept :=
      (w.edges.filter (fun f => ¬(f.source = ref))).filter
        (fun f => ¬(f.sink = ref))
    Except.ok { w with edges := kept }

/-- `unlink_fittings_on_deletion` (models.py 300-330).  Every fallible
step is wrapped exactly as in the source: the `fitting_cleanup` hook is
tried and its failure only logged (the hook itself is outside the edge
store, so only its raising is modelled), `get_for_model` raising
`TransactionManagementError` returns early, a non-integer pk returns
early, and a failure of the row deletion is logged and swallowed.  The
handler itself never raises, which is why its result is always `ok`. -/
def unlink_fittings_on_deletion (w : World) (ctx : DeleteCtx)
    (ref : EntityRef) : Except Unit World :=
  if ctx.no_fittings then Except.ok w
  else if ¬ ctx.is_pipe_element then Except.ok w
  else
    let hookOutcome : Except Unit Unit :=
      if ctx.hook_raises then Except.error () else Except.ok ()
    match hookOutcome with
    | _ =>
      match (if ctx.ct_raises then Except.error () else Except.ok ()) with
      | Except.error _ => Except.ok w
      | Except.ok () =>
        match (if ctx.pk_is_int then Except.ok () else Except.error ()) with
        | Except.error _ => Except.ok w
        | Except.ok () =>
          match cascadeDeleteRows w ref ctx.delete_raises with
          | Except.ok w' => Except.ok w'
          | Except.error _ => Except.ok w

/-- An in-process model instance: (kind, id) identify the backing row and
the Python class; `ver` distinguishes distinct in-process objects for the
same row (a stale and a fresher projection).  Django `Model.__eq__` and
`__hash__` compare class and pk only, i.e. (kind, id), so instances with
equal (kind, id) are the same dictionary key. -/
structure Obj where
  kind : Nat
  id : Nat
  ver : Nat
deriving DecidableEq

/-- The substitution condition of `PipeMapping.replace` (models.py 156
and 160): `other.id == record.id and isinstance(record, other.__class__)`,
with the Python class modelled by the kind. -/
def sameRow (other record : Obj) : Prop :=
  other.id = record.id ∧ other.kind = record.kind

instance (a b : Obj) : Decidable (sameRow a b) := by
  unfold sameRow; infer_instance

/-- `PipeMapping.replace` over one of the two dicts (models.py 152-161),
rendered functionally.  The loop iterates `source.items()` — a snapshot
list in the Python 2 this codebase targets (South migrations,
`ugettext`), so mutating the dict inside the loop is well defined — and
for every pair: a key for the same row is deleted and re-bound to
`record` keeping its value list (`del source[key]; source[record] =
value`), and every value-list slot holding an instance of the same row
is overwritten with `record` in place.  Deleting and re-inserting a key
only moves the pair to the end of the insertion order; lookups are
unaffected, so the model keeps the pair in place. -/
def replaceDict (d : List (Obj × List Obj)) (record : Obj) :
    List (Obj × List Obj) :=
  d.map (fun p =>
    ((if sameRow p.1 record then record else p.1),
     p.2.map (fun v => if sameRow v record then record else v)))

/-- The `PipeMapping` state `replace` acts on, at the precision of
in-process instances (`Obj`) rather than row references. -/
structure PipeMappingObj where
  mapping : List (Obj × List Obj)
  reverse : List (Obj × List Obj)
deriving DecidableEq

/-- `PipeMapping.replace(record)` (models.py 152-161): substitute
`record` in both the forward mapping and the reverse index. -/
def PipeMappingObj.replace (pm : PipeMappingObj) (record : Obj) :
    PipeMappingObj :=
  ⟨replaceDict pm.mapping record, replaceDict pm.reverse record⟩

/-- Every slot of a dict: each key and each element of each value list. -/
def dictSlots (d : List (Obj × List Obj)) : List Obj :=
  d.flatMap (fun p => p.1 :: p.2)

/-- Every slot of both dicts of a `PipeMappingObj`. -/
def PipeMappingObj.slots (pm : PipeMappingObj) : List Obj :=
  dictSlots pm.mapping ++ dictSlots pm.reverse

/-! Concrete sample data used by witnesses and counterexamples. -/

/-- Sample entity of kind 1, pk 1. -/
def eA : EntityRef := ⟨1, 1⟩

/-- Sample entity of kind 1, pk 2. -/
def eB : EntityRef := ⟨1, 2⟩

/-- Sample entity of kind 1, pk 3. -/
def eC : EntityRef := ⟨1, 3⟩

/-- World with no edges and entities `eA`, `eB` saved. -/
def wPair : World := ⟨[], [1], [eA, eB]⟩

/-- World with the cyclic edges `eA→eB, eB→eC, eC→eA` in namespace 1. -/
def wCycle : World :=
  ⟨[⟨1, eA, eB⟩, ⟨1, eB, eC⟩, ⟨1, eC, eA⟩], [1], [eA, eB, eC]⟩

/-- World with entities `{eA, eB, eC}` of kind 1 and the single edge
`eA→eB` in namespace 1. -/
def wEdgeXY : World := ⟨[⟨1, eA, eB⟩], [1], [eA, eB, eC]⟩

/-- World with a live edge `eA→eB` and a dangling edge `eA→(1,9)` whose
sink row does not exist. -/
def wDangle : World :=
  ⟨[⟨1, eA, eB⟩, ⟨1, eA, ⟨1, 9⟩⟩], [1], [eA, eB]⟩

/-- A deletion context where nothing fails: an ordinary saved
`PipeElement` model instance, not marked `no_fittings`. -/
def ctxOk : DeleteCtx := ⟨false, true, false, false, true, false⟩

/-- A cache holding stale instances (ver 0) of rows (1,1) and (1,2). -/
def pmStale : PipeMappingObj :=
  ⟨[(⟨1, 1, 0⟩, [⟨1, 2, 0⟩])], [(⟨1, 2, 0⟩, [⟨1, 1, 0⟩])]⟩

/-- A fresher in-process instance (ver 5) of row (kind 1, id 1). -/
def objFresh : Obj := ⟨1, 1, 5⟩

/-- The distinct sink references of the namespace's rows: every entity
`iter_descendants` can ever add to `seen` lies in this list.  Used to
bound the recursion. -/
def sinkUniverse (w : World) (ft : Nat) : List EntityRef :=
  ((w.edges.filter (fun e => e.fitting_type = ftOr ft)).map
    (fun e => e.sink)).dedup

/-- Some pair of the association list has key `a` with `b` among its
values (regardless of key shadowing). -/
def pairMem {α β : Type} (m : List (α × List β)) (a : α) (b : β) : Prop :=
  ∃ p ∈ m, p.1 = a ∧ b ∈ p.2

/-- The namespace-filtered edge rows `Fitting.mapping` scans
(`records`, models.py 103-105). -/
def nsRecords (w : World) (ft : Nat) : List Edge :=
  w.edges.filter (fun e => e.fitting_type = ftOr ft)

end Models

namespace Models

theorem ftOr_eq {ft : Nat} (hft : ft ≠ 0) : ftOr ft = ft := by
  simp [ftOr, hft]

/-- C1: an edge is identified by its (namespace, source, sink) tuple; a
second `create` of the same tuple — e.g. `pipe_to` with `clear=false` —
raises `ConstraintViolation` (`IntegrityError` from `unique_together`),
while the first creation succeeds. -/
theorem pipe_to_unique_violation (w : World) (ft : Nat) (a b : EntityRef)
    (hft : ft ≠ 0) :
    ((⟨ft, a, b⟩ : Edge) ∈ w.edges →
      PipeElement.pipe_to w a b false ft = Except.error ()) ∧
    ((⟨ft, a, b⟩ : Edge) ∉ w.edges →
      ∃ w', PipeElement.pipe_to w a b false ft
              = Except.ok (⟨ft, a, b⟩, w') ∧
            PipeElement.pipe_to w' a b false ft = Except.error ()) := by
  constructor
  · intro hmem
    simp [PipeElement.pipe_to, createFitting, ftOr_eq hft, hmem]
  · intro hmem
    refine ⟨{ w with edges := w.edges ++ [⟨ft, a, b⟩] }, ?_, ?_⟩
    · simp [PipeElement.pipe_to, createFitting, ftOr_eq hft, hmem]
    · simp [PipeElement.pipe_to, createFitting, ftOr_eq hft]

/-- Witness for C1 at a concrete world: creating `eA→eB` in namespace 1
succeeds, creating it again fails. -/
theorem pipe_to_unique_violation_witness :
    ∃ w', PipeElement.pipe_to wPair eA eB false 1
            = Except.ok (⟨1, eA, eB⟩, w') ∧
          PipeElement.pipe_to w' eA eB false 1 = Except.error () :=
  (pipe_to_unique_violation wPair 1 eA eB (by decide)).2 (by decide)

/-- C10: `pipe_to` with `clear=true` (the default) never raises
`ConstraintViolation`: the clearing step first deletes every outgoing
edge of `self` in the namespace, so the subsequent create cannot hit the
uniqueness constraint — even when the edge already existed. -/
theorem pipe_to_clear_no_violation (w : World) (a b : EntityRef) (ft : Nat) :
    ∃ w', PipeElement.pipe_to w a b true ft
            = Except.ok (⟨ftOr ft, a, b⟩, w') := by
  have hnot : (⟨ftOr ft, a, b⟩ : Edge) ∉ (deleteSinkRows w ft a).edges := by
    simp [deleteSinkRows, List.mem_filter]
  refine ⟨{ deleteSinkRows w ft a with
            edges := (deleteSinkRows w ft a).edges ++ [⟨ftOr ft, a, b⟩] }, ?_⟩
  simp [PipeElement.pipe_to, createFitting, hnot]

/-- C9: the cache scope is reentrant.  Entering with no cache installed
materializes a `PipeMapping` once and remembers to delete it; a nested
entry reuses the installed cache with no materialization; an inner exit
leaves the cache installed and only the outermost exit resets it. -/
theorem cache_reentrant_scope (w : World) (ft : Nat) (pm : PipeMapping)
    (st : Option PipeMapping) :
    cache_enter w ft none = (some (PipeMapping.make w ft), true, 1) ∧
    cache_enter w ft (some pm) = (some pm, false, 0) ∧
    cache_exit (some pm) false = some pm ∧
    cache_exit st true = none ∧
    (let s1 := cache_enter w ft none
     let s2 := cache_enter w ft s1.1
     let s3 := cache_exit s2.1 s2.2.1
     let s4 := cache_exit s3 s1.2.1
     s1.1 = some (PipeMapping.make w ft) ∧ s2.1 = s1.1 ∧ s3 = s1.1 ∧
       s4 = none ∧ s1.2.2 + s2.2.2 = 1) := by
  refine ⟨rfl, rfl, rfl, ?_, ?_⟩
  · simp [cache_exit]
  · simp [cache_enter, cache_exit]

/-- The signal handler catches every failure of its own steps, so it
always returns (the deletion of the owning entity proceeds). -/
theorem unlink_never_raises (w : World) (ctx : DeleteCtx) (ref : EntityRef) :
    ∃ w', unlink_fittings_on_deletion w ctx ref = Except.ok w' := by
  rcases ctx with ⟨nf, pe, hr, ct, pk, dr⟩
  cases nf <;> cases pe <;> cases hr <;> cases ct <;> cases pk <;> cases dr <;>
    exact ⟨_, rfl⟩

/-- C4: deleting a pipe-participating entity with a valid integer pk that
is not marked `no_fittings` removes every edge having it as source or as
sink, with no `fitting_type` restriction (all namespaces), and keeps all
other edges; and for any circumstances whatsoever — including a failing
cleanup hook or a failing row deletion — the handler returns normally, so
the entity deletion itself succeeds.  (`hook_raises` is unconstrained in
the hypotheses: a failing hook does not prevent the edge cleanup.) -/
theorem unlink_cascade_all_namespaces (w : World) (ctx : DeleteCtx)
    (ref : EntityRef)
    (hex : ctx.no_fittings = false) (hpe : ctx.is_pipe_element = true)
    (hct : ctx.ct_raises = false) (hpk : ctx.pk_is_int = true)
    (hdel : ctx.delete_raises = false) :
    (∃ w', unlink_fittings_on_deletion w ctx ref = Except.ok w' ∧
      (∀ f ∈ w'.edges, f.source ≠ ref ∧ f.sink ≠ ref) ∧
      (∀ f ∈ w.edges, f.source ≠ ref → f.sink ≠ ref → f ∈ w'.edges)) ∧
    (∀ ctx' : DeleteCtx, ∃ w'',
      unlink_fittings_on_deletion w ctx' ref = Except.ok w'') := by
  constructor
  · refine ⟨⟨(w.edges.filter (fun f => ¬(f.source = ref))).filter
        (fun f => ¬(f.sink = ref)), w.registeredKinds, w.alive⟩, ?_, ?_, ?_⟩
    · rcases ctx with ⟨nf, pe, hr, ct, pk, dr⟩
      simp only at hex hpe hct hpk hdel
      subst hex hpe hct hpk hdel
      cases hr <;> rfl
    · intro f hf
      simp only [List.mem_filter, decide_eq_true_eq] at hf
      exact ⟨hf.1.2, hf.2⟩
    · intro f hf hs hk
      simp only [List.mem_filter, decide_eq_true_eq]
      exact ⟨⟨hf, hs⟩, hk⟩
  · intro ctx'
    exact unlink_never_raises w ctx' ref

/-- Witness for C4: in the cyclic world, deleting `eB` removes both edges
touching `eB` and keeps `eC→eA`; the handler returns for every context. -/
theorem unlink_cascade_all_namespaces_witness :
    (∃ w', unlink_fittings_on_deletion wCycle ctxOk eB = Except.ok w' ∧
      (∀ f ∈ w'.edges, f.source ≠ eB ∧ f.sink ≠ eB) ∧
      (∀ f ∈ wCycle.edges, f.source ≠ eB → f.sink ≠ eB → f ∈ w'.edges)) ∧
    (∀ ctx' : DeleteCtx, ∃ w'',
      unlink_fittings_on_deletion wCycle ctx' eB = Except.ok w'') :=
  unlink_cascade_all_namespaces wCycle ctxOk eB rfl rfl rfl rfl rfl

/-- C5 (code bug): with entities `{eA, eB, eC}` of kind 1 and the single
edge `eA→eB`, `no_sources` does not return `{eA, eC}`: the comprehension
`[f.target_id for f in maps]` reads the nonexistent attribute
`target_id` (the field is named `sink_id`), so the call raises
`AttributeError` as soon as one matching row exists. -/
theorem no_sources_attribute_error :
    PipeElement.no_sources wEdgeXY 1 1 = Except.error () := by rfl

theorem mem_map_substitute (l : List Obj) (r x : Obj) :
    x ∈ l.map (fun v => if sameRow v r then r else v) ↔
      (x ∈ l ∧ ¬ sameRow x r) ∨ (x = r ∧ ∃ y ∈ l, sameRow y r) := by
  simp only [List.mem_map]
  constructor
  · rintro ⟨y, hy, hxy⟩
    by_cases hsr : sameRow y r
    · rw [if_pos hsr] at hxy
      exact Or.inr ⟨hxy.symm, y, hy, hsr⟩
    · rw [if_neg hsr] at hxy
      subst hxy
      exact Or.inl ⟨hy, hsr⟩
  · rintro (⟨hx, hnr⟩ | ⟨rfl, y, hy, hsr⟩)
    · exact ⟨x, hx, if_neg hnr⟩
    · exact ⟨y, hy, if_pos hsr⟩

theorem dictSlots_replaceDict (d : List (Obj × List Obj)) (r : Obj) :
    dictSlots (replaceDict d r)
      = (dictSlots d).map (fun v => if sameRow v r then r else v) := by
  induction d with
  | nil => rfl
  | cons p rest ih =>
    simp only [dictSlots, replaceDict, List.map_cons, List.flatMap_cons,
      List.map_append] at ih ⊢
    rw [ih]

/-- C6: `replace` completes (it is a total function: the Python 2
`items()` snapshot makes the in-loop dict mutation well defined) and
substitutes the fresh instance at every slot of both dicts where an
instance of the same (kind, id) row occurs — keys and value-list entries
alike — leaving every other slot untouched: afterwards no same-row slot
differs from the fresh instance, so later lookups observe it. -/
theorem replace_substitutes_every_slot (pm : PipeMappingObj) (record : Obj) :
    (∀ x ∈ (pm.replace record).slots, sameRow x record → x = record) ∧
    (∀ x, x ∈ (pm.replace record).slots ↔
      (x ∈ pm.slots ∧ ¬ sameRow x record) ∨
      (x = record ∧ ∃ y ∈ pm.slots, sameRow y record)) := by
  have hs : (pm.replace record).slots
      = pm.slots.map (fun v => if sameRow v record then record else v) := by
    simp [PipeMappingObj.slots, PipeMappingObj.replace, dictSlots_replaceDict,
      List.map_append]
  constructor
  · intro x hx hsr
    rw [hs, List.mem_map] at hx
    rcases hx with ⟨y, _, hxy⟩
    by_cases h : sameRow y record
    · rw [if_pos h] at hxy
      exact hxy.symm
    · rw [if_neg h] at hxy
      exact absurd (hxy ▸ hsr) h
  · intro x
    rw [hs]
    exact mem_map_substitute _ _ _

/-- Witness for C6: replacing the stale (1,1) instance by the fresher one
in a concrete two-entry cache. -/
theorem replace_substitutes_every_slot_witness :
    (∀ x ∈ (pmStale.replace objFresh).slots, sameRow x objFresh →
      x = objFresh) ∧
    (∀ x, x ∈ (pmStale.replace objFresh).slots ↔
      (x ∈ pmStale.slots ∧ ¬ sameRow x objFresh) ∨
      (x = objFresh ∧ ∃ y ∈ pmStale.slots, sameRow y objFresh)) :=
  replace_substitutes_every_slot pmStale objFresh

theorem resolve_some {w : World} {y x : EntityRef}
    (h : resolve w y = some x) : x = y ∧ resolve w x = some x := by
  unfold resolve at h ⊢
  by_cases hc : y.kind ∈ w.registeredKinds ∧ y ∈ w.alive
  · rw [if_pos hc] at h
    simp only [Option.some.injEq] at h
    subst h
    exact ⟨rfl, if_pos hc⟩
  · rw [if_neg hc] at h
    cases h

/-- Closed form of the uncached `sinks` loop's yielded list: one element
per row whose sink kind still has a model class — the sink object when
the row exists, `none` when it is gone.  Rows of a vanished model class
contribute nothing (their dereference raises and the `except` branch
deletes them instead). -/
theorem sinksUncached_fst (w : World) (ft : Nat) (self : EntityRef) :
    (PipeElement.sinksUncached w ft self).1
      = ((Fitting.sinks w ft self).filter
          (fun f => f.sink.kind ∈ w.registeredKinds)).map
        (fun f => if f.sink ∈ w.alive then some f.sink else none) := by
  unfold PipeElement.sinksUncached
  generalize Fitting.sinks w ft self = fs
  suffices h : ∀ (fs : List Edge) (res : List (Option EntityRef))
      (wa : World),
      (fs.foldl (fun acc f =>
        if f.sink.kind ∈ w.registeredKinds then
          (acc.1 ++ [if f.sink ∈ w.alive then some f.sink else none],
           acc.2)
        else (acc.1, deleteEdge acc.2 f)) (res, wa)).1
        = res ++ ((fs.filter (fun f => f.sink.kind ∈ w.registeredKinds)).map
            (fun f => if f.sink ∈ w.alive then some f.sink else none)) by
    simpa using h fs [] w
  intro fs
  induction fs with
  | nil => intro res wa; simp
  | cons f rest ih =>
    intro res wa
    by_cases hreg : f.sink.kind ∈ w.registeredKinds
    · simp [List.foldl_cons, hreg, ih, List.filter_cons]
    · simp [List.foldl_cons, hreg, ih, List.filter_cons]

/-- Entity-set membership of the uncached `sinks` answer: an entity is
returned exactly when a matching row's sink resolves to it. -/
theorem mem_some_sinksUncached (w : World) (ft : Nat) (self x : EntityRef) :
    some x ∈ (PipeElement.sinksUncached w ft self).1 ↔
      ∃ f ∈ Fitting.sinks w ft self, resolve w f.sink = some x := by
  rw [sinksUncached_fst]
  simp only [List.mem_map, List.mem_filter, decide_eq_true_eq]
  constructor
  · rintro ⟨f, ⟨hf, hreg⟩, hx⟩
    by_cases hal : f.sink ∈ w.alive
    · rw [if_pos hal] at hx
      refine ⟨f, hf, ?_⟩
      rw [resolve, if_pos ⟨hreg, hal⟩]
      exact hx
    · rw [if_neg hal] at hx
      cases hx
  · rintro ⟨f, hf, hres⟩
    have hc := hres
    rw [resolve] at hc
    by_cases hcond : f.sink.kind ∈ w.registeredKinds ∧ f.sink ∈ w.alive
    · rw [if_pos hcond] at hc
      exact ⟨f, ⟨hf, hcond.1⟩, by rw [if_pos hcond.2]; exact hc⟩
    · rw [if_neg hcond] at hc
      cases hc

/-- C7 (code bug): at the concrete dangling store, `sinks()` on `eA`
with no active cache returns `[some eB, none]` and leaves the store
unchanged.  The `GenericForeignKey` dereference of the deleted sink row
(1, 9) returns `None` — the descriptor swallows `ObjectDoesNotExist` —
so `None` is appended to the result, and the `except AttributeError`
branch that would delete the dangling row never runs (it fires only when
the content type's model class is gone).  The dangling edge thus
contributes an element to the result and is not deleted, contrary to the
documented dangling tolerance. -/
theorem sinks_dangling_appends_none :
    PipeElement.sinks wDangle none 1 eA = ([some eB, none], wDangle) ∧
    none ∈ (PipeElement.sinks wDangle none 1 eA).1 ∧
    (⟨1, eA, ⟨1, 9⟩⟩ : Edge) ∈
      (PipeElement.sinks wDangle none 1 eA).2.edges := by
  refine ⟨rfl, by decide, by decide⟩

/-- The entities the descendant walk recurses into are exactly the
resolved sinks of the matching rows. -/
theorem neighborSinks_eq (w : World) (ft : Nat) (e : EntityRef) :
    neighborSinks w ft e
      = (Fitting.sinks w ft e).filterMap (fun f => resolve w f.sink) := by
  rw [neighborSinks, sinksUncached_fst]
  generalize Fitting.sinks w ft e = fs
  induction fs with
  | nil => rfl
  | cons f rest ih =>
    by_cases hreg : f.sink.kind ∈ w.registeredKinds
    · by_cases hal : f.sink ∈ w.alive
      · simp [List.filter_cons, hreg, hal, List.filterMap_cons, resolve, ih]
      · simp [List.filter_cons, hreg, hal, List.filterMap_cons, resolve, ih]
    · simp [List.filter_cons, hreg, List.filterMap_cons, resolve, ih]

theorem neighborSinks_subset (w : World) (ft : Nat) (e : EntityRef) :
    ∀ x ∈ neighborSinks w ft e, x ∈ sinkUniverse w ft := by
  intro x hx
  rw [neighborSinks_eq] at hx
  rcases List.mem_filterMap.1 hx with ⟨f, hf, hres⟩
  rcases resolve_some hres with ⟨rfl, _⟩
  simp only [Fitting.sinks, List.mem_filter, decide_eq_true_eq] at hf
  simp only [sinkUniverse, List.mem_dedup, List.mem_map]
  refine ⟨f, List.mem_filter.2 ⟨hf.1, by simp [hf.2.1]⟩, rfl⟩

theorem neighborSinks_length_le (w : World) (ft : Nat) (e : EntityRef) :
    (neighborSinks w ft e).length ≤ w.edges.length := by
  rw [neighborSinks_eq]
  calc ((Fitting.sinks w ft e).filterMap (fun f => resolve w f.sink)).length
      ≤ (Fitting.sinks w ft e).length := List.length_filterMap_le _ _
    _ ≤ w.edges.length := List.length_filter_le _ _

theorem sinkUniverse_length_le (w : World) (ft : Nat) :
    (sinkUniverse w ft).length ≤ w.edges.length := by
  rw [sinkUniverse]
  calc (((w.edges.filter (fun e => e.fitting_type = ftOr ft)).map
          (fun e => e.sink)).dedup).length
      ≤ ((w.edges.filter (fun e => e.fitting_type = ftOr ft)).map
          (fun e => e.sink)).length := (List.dedup_sublist _).length_le
    _ = (w.edges.filter (fun e => e.fitting_type = ftOr ft)).length :=
        List.length_map _ _
    _ ≤ w.edges.length := List.length_filter_le _ _

theorem length_filter_not_mem_anti (U t t' : List EntityRef)
    (h : ∀ x ∈ t, x ∈ t') :
    (U.filter (fun x => x ∉ t')).length
      ≤ (U.filter (fun x => x ∉ t)).length := by
  induction U with
  | nil => simp
  | cons u rest ih =>
    by_cases hu : u ∈ t'
    · by_cases hut : u ∈ t
      · simpa [List.filter_cons, hu, hut] using ih
      · simp only [List.filter_cons]
        have e1 : (decide (u ∉ t') : Bool) = false := by simp [hu]
        have e2 : (decide (u ∉ t) : Bool) = true := by simp [hut]
        rw [e1, e2]
        simp only [Bool.false_eq_true, if_false, if_true, List.length_cons]
        exact Nat.le_succ_of_le ih
    · have hut : u ∉ t := fun hmem => hu (h u hmem)
      simpa [List.filter_cons, hu, hut] using ih

theorem length_filter_cons_seen {U seen : List EntityRef} {s : EntityRef}
    (hU : U.Nodup) (hsU : s ∈ U) (hs : s ∉ seen) :
    (U.filter (fun x => x ∉ s :: seen)).length + 1
      = (U.filter (fun x => x ∉ seen)).length := by
  have h1 : U.filter (fun x => x ∉ s :: seen)
      = (U.filter (fun x => x ∉ seen)).filter (fun x => x ≠ s) := by
    rw [List.filter_filter]
    apply List.filter_congr
    intro x _
    simp only [List.mem_cons, not_or, decide_not]
    cases Decidable.em (x = s) with
    | inl hxs => simp [hxs]
    | inr hxs => simp [hxs]
  have hVnd : (U.filter (fun x => x ∉ seen)).Nodup := hU.filter _
  have hsV : s ∈ U.filter (fun x => x ∉ seen) :=
    List.mem_filter.2 ⟨hsU, by simpa using hs⟩
  have h2 : (U.filter (fun x => x ∉ seen)).filter (fun x => x ≠ s)
      = (U.filter (fun x => x ∉ seen)).erase s := by
    rw [List.Nodup.erase_eq_filter hVnd]
    apply List.filter_congr
    intro x _
    by_cases hxs : x = s <;> simp [hxs, bne]
  have hpos : 0 < (U.filter (fun x => x ∉ seen)).length :=
    List.length_pos_of_mem hsV
  rw [h1, h2, List.length_erase_of_mem hsV]
  omega

/-- Characterization of one `iter_descendants` recursion step sequence:
whenever it completes, the yielded list has no duplicates, yields nothing
already seen, and the final seen set is exactly the yields plus the
initial seen set. -/
theorem iterDescAux_spec (w : World) (ft : Nat) :
    ∀ (fuel : Nat) (sinks seen out seen' : List EntityRef),
      iterDescAux w ft fuel sinks seen = some (out, seen') →
      out.Nodup ∧ (∀ x ∈ out, x ∉ seen) ∧
        (∀ x, x ∈ seen' ↔ x ∈ out ∨ x ∈ seen) := by
  intro fuel
  induction fuel with
  | zero =>
    intro sinks seen out seen' h
    simp [iterDescAux] at h
  | succ fuel ih =>
    intro sinks seen out seen' h
    cases sinks with
    | nil =>
      simp only [iterDescAux, Option.some.injEq, Prod.mk.injEq] at h
      obtain ⟨rfl, rfl⟩ := h
      simp
    | cons s rest =>
      simp only [iterDescAux] at h
      by_cases hs : s ∈ seen
      · rw [if_pos hs] at h
        exact ih rest seen out seen' h
      · rw [if_neg hs] at h
        cases h1 : iterDescAux w ft fuel (neighborSinks w ft s) (s :: seen) with
        | none => rw [h1] at h; cases h
        | some p1 =>
          obtain ⟨sub, seen₁⟩ := p1
          rw [h1] at h
          cases h2 : iterDescAux w ft fuel rest seen₁ with
          | none => simp only [h2] at h; exact Option.noConfusion h
          | some p2 =>
            obtain ⟨tail, seen₂⟩ := p2
            simp only [h2, Option.some.injEq, Prod.mk.injEq] at h
            obtain ⟨rfl, rfl⟩ := h
            obtain ⟨ndsub, hsubseen, hseen₁⟩ := ih _ _ _ _ h1
            obtain ⟨ndtail, htailseen₁, hseen₂⟩ := ih _ _ _ _ h2
            have hssub : s ∉ sub := fun hmem =>
              hsubseen s hmem (List.mem_cons_self s seen)
            have hsseen₁ : s ∈ seen₁ :=
              (hseen₁ s).2 (Or.inr (List.mem_cons_self s seen))
            have hstail : s ∉ tail := fun hmem => htailseen₁ s hmem hsseen₁
            have hdisj : sub.Disjoint tail := by
              intro a ha hat
              exact htailseen₁ a hat ((hseen₁ a).2 (Or.inl ha))
            refine ⟨?_, ?_, ?_⟩
            · refine List.nodup_cons.2 ⟨?_, ndsub.append ndtail hdisj⟩
              simp only [List.mem_append]
              rintro (h' | h')
              · exact hssub h'
              · exact hstail h'
            · intro x hx
              simp only [List.mem_cons, List.mem_append] at hx
              rcases hx with rfl | hx | hx
              · exact hs
              · intro hxs
                exact hsubseen x hx (List.mem_cons_of_mem s hxs)
              · intro hxs
                exact htailseen₁ x hx
                  ((hseen₁ x).2 (Or.inr (List.mem_cons_of_mem s hxs)))
            · intro x
              rw [hseen₂ x]
              simp only [List.mem_cons, List.mem_append]
              rw [hseen₁ x]
              simp only [List.mem_cons]
              tauto

/-- Fuel adequacy for `iterDescAux`: the recursion completes whenever the
fuel exceeds the pending-sibling count plus a step budget of
`edges + 1` for each not-yet-seen potential sink. -/
theorem iterDescAux_adequate (w : World) (ft : Nat) :
    ∀ (fuel : Nat) (sinks seen : List EntityRef),
      (∀ x ∈ sinks, x ∈ sinkUniverse w ft) →
      sinks.length +
        ((sinkUniverse w ft).filter (fun x => x ∉ seen)).length *
          (w.edges.length + 1) < fuel →
      (iterDescAux w ft fuel sinks seen).isSome := by
  intro fuel
  induction fuel with
  | zero =>
    intro sinks seen _ hlt
    exact absurd hlt (Nat.not_lt_zero _)
  | succ fuel ih =>
    intro sinks seen hsub hlt
    cases sinks with
    | nil => simp [iterDescAux]
    | cons s rest =>
      simp only [iterDescAux]
      by_cases hs : s ∈ seen
      · rw [if_pos hs]
        apply ih rest seen (fun x hx => hsub x (List.mem_cons_of_mem s hx))
        simp only [List.length_cons] at hlt
        omega
      · rw [if_neg hs]
        have hsU : s ∈ sinkUniverse w ft := hsub s (List.mem_cons_self s rest)
        have hdec := length_filter_cons_seen
          (List.nodup_dedup _) hsU hs (U := sinkUniverse w ft)
        have hnb := neighborSinks_length_le w ft s
        have hchild :
            (iterDescAux w ft fuel (neighborSinks w ft s) (s :: seen)).isSome := by
          apply ih _ _ (neighborSinks_subset w ft s)
          have hmul : ∀ a b : Nat, (a + 1) * b = a * b + b := by
            intro a b; ring
          rw [← hdec, hmul] at hlt
          simp only [List.length_cons] at hlt
          omega
        obtain ⟨⟨sub, seen₁⟩, h1⟩ := Option.isSome_iff_exists.1 hchild
        rw [h1]
        have hmono := (iterDescAux_spec w ft fuel _ _ _ _ h1).2.2
        have hsib : (iterDescAux w ft fuel rest seen₁).isSome := by
          apply ih rest seen₁ (fun x hx => hsub x (List.mem_cons_of_mem s hx))
          have hanti := length_filter_not_mem_anti (sinkUniverse w ft)
            (s :: seen) seen₁ (fun x hx => (hmono x).2 (Or.inr hx))
          have hle := Nat.mul_le_mul_right (w.edges.length + 1) hanti
          have hmul : ∀ a b : Nat, (a + 1) * b = a * b + b := by
            intro a b; ring
          rw [← hdec, hmul] at hlt
          simp only [List.length_cons] at hlt
          omega
        obtain ⟨⟨tail, seen₂⟩, h2⟩ := Option.isSome_iff_exists.1 hsib
        simp [h2]

/-- C2 (amended): for every store and namespace, `descendants()`
terminates and yields each entity at most once — the visited set
guarantees that even on cycles or diamonds — but the starting entity is
not excluded: when a cycle leads back to it, it is yielded too (see the
counterexample theorem for the a→b→c→a instance). -/
theorem descendants_terminates_nodup (w : World) (ft : Nat) (e : EntityRef) :
    ∃ out, PipeElement.descendants w ft e = some out ∧ out.Nodup := by
  have hsome :
      (iterDescAux w ft (descFuel w) (neighborSinks w ft e) []).isSome := by
    apply iterDescAux_adequate w ft _ _ _ (neighborSinks_subset w ft e)
    have h1 := neighborSinks_length_le w ft e
    have h3 : ((sinkUniverse w ft).filter
        (fun x => x ∉ ([] : List EntityRef))).length ≤ w.edges.length := by
      calc ((sinkUniverse w ft).filter
            (fun x => x ∉ ([] : List EntityRef))).length
          ≤ (sinkUniverse w ft).length := List.length_filter_le _ _
        _ ≤ w.edges.length := sinkUniverse_length_le w ft
    have hle := Nat.mul_le_mul_right (w.edges.length + 1) h3
    have hexp : descFuel w
        = w.edges.length * (w.edges.length + 1) + 2 * w.edges.length + 2 := by
      rw [descFuel]; ring
    rw [hexp]
    omega
  obtain ⟨⟨out, seen'⟩, hout⟩ := Option.isSome_iff_exists.1 hsome
  refine ⟨out, ?_, (iterDescAux_spec w ft _ _ _ _ _ hout).1⟩
  simp [PipeElement.descendants, hout]

/-- C2 counterexample: with exactly the edges `eA→eB, eB→eC, eC→eA` in
one namespace, `eA.descendants()` yields `[eB, eC, eA]` — the starting
entity `eA` is yielded (the cycle leads back to it), contradicting
"yields exactly the set {b, c} (the starting entity a is not yielded)". -/
theorem descendants_cycle_counterexample :
    PipeElement.descendants wCycle 1 eA = some [eB, eC, eA] ∧
    eA ∈ [eB, eC, eA] := by
  refine ⟨by rfl, by simp⟩

theorem lookupList_setdefaultAppend {α β : Type} [DecidableEq α]
    (m : List (α × List β)) (k : α) (v : β) (key : α) :
    lookupList (setdefaultAppend m k v) key
      = if key = k then lookupList m k ++ [v] else lookupList m key := by
  induction m with
  | nil =>
    by_cases h : key = k
    · simp [setdefaultAppend, lookupList, h]
    · simp [setdefaultAppend, lookupList, h, Ne.symm h]
  | cons p rest ih =>
    obtain ⟨k', vs⟩ := p
    by_cases h1 : k' = k
    · subst h1
      by_cases h2 : key = k'
      · simp [setdefaultAppend, lookupList, h2]
      · simp [setdefaultAppend, lookupList, h2, Ne.symm h2]
    · by_cases h2 : key = k'
      · subst h2
        have hk : ¬(key = k) := h1
        simp [setdefaultAppend, h1, lookupList, hk]
      · by_cases h3 : key = k
        · subst h3
          simp [setdefaultAppend, h1, lookupList, h2, Ne.symm h2, ih]
        · simp [setdefaultAppend, h1, lookupList, h2, Ne.symm h2, h3, ih]

theorem mem_lookupList_setdefaultAppend {α β : Type} [DecidableEq α]
    (m : List (α × List β)) (k : α) (v : β) (key : α) (i : β) :
    i ∈ lookupList (setdefaultAppend m k v) key ↔
      i ∈ lookupList m key ∨ (key = k ∧ i = v) := by
  rw [lookupList_setdefaultAppend]
  by_cases h : key = k
  · subst h
    simp [List.mem_append]
  · simp [h]

theorem mem_lookupList_pair {α β : Type} [DecidableEq α]
    (m : List (α × List β)) (a : α) (b : β) (h : b ∈ lookupList m a) :
    pairMem m a b := by
  induction m with
  | nil => cases h
  | cons p rest ih =>
    obtain ⟨k', vs⟩ := p
    by_cases hk : k' = a
    · subst hk
      simp only [lookupList, if_pos rfl] at h
      exact ⟨(k', vs), List.mem_cons_self _ _, rfl, h⟩
    · simp only [lookupList, if_neg hk] at h
      obtain ⟨q, hq, hqa, hqb⟩ := ih h
      exact ⟨q, List.mem_cons_of_mem _ hq, hqa, hqb⟩

theorem pairMem_cons {α β : Type} (p : α × List β) (m : List (α × List β))
    (a : α) (b : β) :
    pairMem (p :: m) a b ↔ (p.1 = a ∧ b ∈ p.2) ∨ pairMem m a b := by
  constructor
  · rintro ⟨q, hq, ha, hb⟩
    rcases List.mem_cons.1 hq with rfl | hq'
    · exact Or.inl ⟨ha, hb⟩
    · exact Or.inr ⟨q, hq', ha, hb⟩
  · rintro (⟨ha, hb⟩ | ⟨q, hq, ha, hb⟩)
    · exact ⟨p, List.mem_cons_self _ _, ha, hb⟩
    · exact ⟨q, List.mem_cons_of_mem _ hq, ha, hb⟩

theorem pairMem_setdefaultAppend {α β : Type} [DecidableEq α]
    (m : List (α × List β)) (k : α) (v : β) (a : α) (b : β) :
    pairMem (setdefaultAppend m k v) a b ↔
      pairMem m a b ∨ (k = a ∧ b = v) := by
  induction m with
  | nil =>
    simp only [setdefaultAppend]
    rw [pairMem_cons]
    constructor
    · rintro (⟨ha, hb⟩ | ⟨q, hq, _, _⟩)
      · simp only [List.mem_singleton] at hb
        exact Or.inr ⟨ha, hb⟩
      · cases hq
    · rintro (⟨q, hq, _, _⟩ | ⟨ha, hb⟩)
      · cases hq
      · exact Or.inl ⟨ha, by simp [hb]⟩
  | cons p rest ih =>
    obtain ⟨k', vs⟩ := p
    by_cases h1 : k' = k
    · subst h1
      have hsda : setdefaultAppend ((k', vs) :: rest) k' v
          = (k', vs ++ [v]) :: rest := by
        simp [setdefaultAppend]
      rw [hsda, pairMem_cons, pairMem_cons]
      simp only [List.mem_append, List.mem_singleton]
      constructor
      · rintro (⟨ha, hb | hb⟩ | hm)
        · exact Or.inl (Or.inl ⟨ha, hb⟩)
        · exact Or.inr ⟨ha, hb⟩
        · exact Or.inl (Or.inr hm)
      · rintro ((⟨ha, hb⟩ | hm) | ⟨ha, hb⟩)
        · exact Or.inl ⟨ha, Or.inl hb⟩
        · exact Or.inr hm
        · exact Or.inl ⟨ha, Or.inr hb⟩
    · have hsda : setdefaultAppend ((k', vs) :: rest) k v
          = (k', vs) :: setdefaultAppend rest k v := by
        simp [setdefaultAppend, h1]
      rw [hsda, pairMem_cons, pairMem_cons, ih]
      tauto

/-- Closed form for `type_map` membership: an id is listed under a kind
iff some record has that (kind, id) as its sink or source endpoint. -/
theorem mem_lookupList_typeMap (recs : List Edge) (k i : Nat) :
    i ∈ lookupList (typeMap recs) k ↔
      ∃ r ∈ recs, (k = r.sink.kind ∧ i = r.sink.id) ∨
        (k = r.source.kind ∧ i = r.source.id) := by
  have haux : ∀ (recs : List Edge) (tm₀ : List (Nat × List Nat)),
      i ∈ lookupList (recs.foldl (fun tm r =>
          setdefaultAppend (setdefaultAppend tm r.sink.kind r.sink.id)
            r.source.kind r.source.id) tm₀) k ↔
        i ∈ lookupList tm₀ k ∨
          ∃ r ∈ recs, (k = r.sink.kind ∧ i = r.sink.id) ∨
            (k = r.source.kind ∧ i = r.source.id) := by
    intro recs
    induction recs with
    | nil => intro tm₀; simp
    | cons r rest ih =>
      intro tm₀
      rw [List.foldl_cons, ih, mem_lookupList_setdefaultAppend,
        mem_lookupList_setdefaultAppend]
      constructor
      · rintro (((h | h) | h) | ⟨r', hr', h⟩)
        · exact Or.inl h
        · exact Or.inr ⟨r, List.mem_cons_self _ _, Or.inl h⟩
        · exact Or.inr ⟨r, List.mem_cons_self _ _, Or.inr h⟩
        · exact Or.inr ⟨r', List.mem_cons_of_mem _ hr', h⟩
      · rintro (h | ⟨r', hr', h⟩)
        · exact Or.inl (Or.inl (Or.inl h))
        · rcases List.mem_cons.1 hr' with rfl | hr''
          · rcases h with h | h
            · exact Or.inl (Or.inl (Or.inr h))
            · exact Or.inl (Or.inr h)
          · exact Or.inr ⟨r', hr'', h⟩
  rw [typeMap, haux]
  simp [lookupList]

theorem alistFind_mem {α β : Type} [DecidableEq α]
    (m : List (α × β)) (key : α) (v : β) (h : alistFind m key = some v) :
    (key, v) ∈ m := by
  induction m with
  | nil => cases h
  | cons p rest ih =>
    obtain ⟨k', v'⟩ := p
    by_cases hk : k' = key
    · subst hk
      have h' : v' = v := by simpa [alistFind] using h
      subst h'
      exact List.mem_cons_self _ _
    · simp only [alistFind, if_neg hk] at h
      exact List.mem_cons_of_mem _ (ih h)

theorem alistFind_isSome_of_mem {α β : Type} [DecidableEq α]
    (m : List (α × β)) (key : α) (v : β) (h : (key, v) ∈ m) :
    (alistFind m key).isSome := by
  induction m with
  | nil => cases h
  | cons p rest ih =>
    obtain ⟨k', v'⟩ := p
    by_cases hk : k' = key
    · simp [alistFind, hk]
    · rcases List.mem_cons.1 h with heq | hmem
      · cases heq
        exact absurd rfl hk
      · simpa [alistFind, hk] using ih hmem

/-- Membership in `object_map`: an entry exists for (kind, id) with a
resolved object exactly when the kind is registered, the row exists, and
the id was collected under that kind in `type_map`; the stored object is
the row itself. -/
theorem mem_objectMap (w : World) (tm : List (Nat × List Nat)) (k i : Nat)
    (v : EntityRef) :
    ((k, i), v) ∈ (objectMapCounted w tm).1 ↔
      (v = ⟨k, i⟩ ∧ k ∈ w.registeredKinds ∧ (⟨k, i⟩ : EntityRef) ∈ w.alive ∧
        ∃ p ∈ tm, p.1 = k ∧ i ∈ p.2) := by
  have haux : ∀ (tm : List (Nat × List Nat))
      (acc : List ((Nat × Nat) × EntityRef) × Nat),
      ((k, i), v) ∈ (tm.foldl (fun acc p =>
        if p.1 ∈ w.registeredKinds then
          (acc.1 ++ (fetchKind w p.1 p.2).map (fun t => ((p.1, t.id), t)),
           acc.2 + 1)
        else acc) acc).1 ↔
        ((k, i), v) ∈ acc.1 ∨
          (v = ⟨k, i⟩ ∧ k ∈ w.registeredKinds ∧
            (⟨k, i⟩ : EntityRef) ∈ w.alive ∧ ∃ p ∈ tm, p.1 = k ∧ i ∈ p.2) := by
    intro tm
    induction tm with
    | nil => intro acc; simp
    | cons p rest ih =>
      intro acc
      rw [List.foldl_cons]
      by_cases hreg : p.1 ∈ w.registeredKinds
      · rw [if_pos hreg, ih]
        simp only [List.mem_append, List.mem_map]
        constructor
        · rintro ((hacc | ⟨t, ht, hteq⟩) | hrest)
          · exact Or.inl hacc
          · simp only [fetchKind, List.mem_filter, decide_eq_true_eq] at ht
            obtain ⟨htal, htk, hti⟩ := ht
            have h1 : p.1 = k := by
              have := congrArg (fun q => q.1.1) hteq
              simpa using this
            have h2 : t.id = i := by
              have := congrArg (fun q => q.1.2) hteq
              simpa using this
            have h3 : t = v := by
              have := congrArg (fun q => q.2) hteq
              simpa using this
            have hv : v = ⟨k, i⟩ := by
              subst h3 h2 h1
              rw [← htk]
            refine Or.inr ⟨hv, h1 ▸ hreg, ?_, ⟨p, List.mem_cons_self _ _,
              h1, ?_⟩⟩
            · rw [← hv]; subst h3; exact htal
            · rw [← h2]; exact hti
          · rcases hrest with ⟨hv, hk, hal, q, hq, hqk, hqi⟩
            exact Or.inr ⟨hv, hk, hal, q, List.mem_cons_of_mem _ hq, hqk, hqi⟩
        · rintro (hacc | ⟨hv, hk, hal, q, hq, hqk, hqi⟩)
          · exact Or.inl (Or.inl hacc)
          · rcases List.mem_cons.1 hq with rfl | hq'
            · refine Or.inl (Or.inr ⟨⟨k, i⟩, ?_, ?_⟩)
              · simp only [fetchKind, List.mem_filter, decide_eq_true_eq]
                exact ⟨hal, hqk.symm, hqi⟩
              · rw [hqk, hv]
            · exact Or.inr ⟨hv, hk, hal, q, hq', hqk, hqi⟩
      · rw [if_neg hreg, ih]
        constructor
        · rintro (hacc | ⟨hv, hk, hal, q, hq, hqk, hqi⟩)
          · exact Or.inl hacc
          · exact Or.inr ⟨hv, hk, hal, q, List.mem_cons_of_mem _ hq, hqk, hqi⟩
        · rintro (hacc | ⟨hv, hk, hal, q, hq, hqk, hqi⟩)
          · exact Or.inl hacc
          · rcases List.mem_cons.1 hq with rfl | hq'
            · exact absurd (hqk.symm ▸ hk) hreg
            · exact Or.inr ⟨hv, hk, hal, q, hq', hqk, hqi⟩
  rw [objectMapCounted, haux]
  simp

/-- The object stored under a key of `object_map` is determined: it is
the row reference itself. -/
theorem alistFind_objectMap_eq (w : World) (tm : List (Nat × List Nat))
    (k i : Nat) (v : EntityRef)
    (h : alistFind (objectMapCounted w tm).1 (k, i) = some v) :
    v = ⟨k, i⟩ ∧ k ∈ w.registeredKinds ∧ (⟨k, i⟩ : EntityRef) ∈ w.alive := by
  have hmem := alistFind_mem _ _ _ h
  rw [mem_objectMap] at hmem
  exact ⟨hmem.1, hmem.2.1, hmem.2.2.1⟩

/-- Bridging: for an endpoint reference of a scanned record, looking the
endpoint up in `object_map` is exactly generic-foreign-key resolution. -/
theorem alistFind_objectMap_resolve (w : World) (tm : List (Nat × List Nat))
    (y : EntityRef) (hy : ∃ p ∈ tm, p.1 = y.kind ∧ y.id ∈ p.2) :
    alistFind (objectMapCounted w tm).1 (y.kind, y.id) = resolve w y := by
  cases hfind : alistFind (objectMapCounted w tm).1 (y.kind, y.id) with
  | some v =>
    obtain ⟨hv, hk, hal⟩ := alistFind_objectMap_eq w tm _ _ _ hfind
    have hyv : v = y := by
      rw [hv]
    subst hyv
    rw [resolve, if_pos ⟨hk, by simpa using hal⟩]
  | none =>
    cases hres : resolve w y with
    | none => rfl
    | some v =>
      rw [resolve] at hres
      by_cases hc : y.kind ∈ w.registeredKinds ∧ y ∈ w.alive
      · have hsome := alistFind_isSome_of_mem (objectMapCounted w tm).1
          (y.kind, y.id) y
          ((mem_objectMap w tm y.kind y.id y).2
            ⟨rfl, hc.1, by simpa using hc.2, hy⟩)
        rw [hfind] at hsome
        cases hsome
      · rw [if_neg hc] at hres
        cases hres

/-- Characterization of `final_mapping` when endpoint lookup agrees with
resolution (which it does for the scanned records): both the forward
lookup and raw pair membership say "some record links `a` to `x` and both
endpoints resolve". -/
theorem finalMapping_char (w : World) (om : List ((Nat × Nat) × EntityRef))
    (recs : List Edge)
    (hbr : ∀ r ∈ recs,
      alistFind om (r.source.kind, r.source.id) = resolve w r.source ∧
      alistFind om (r.sink.kind, r.sink.id) = resolve w r.sink)
    (a x : EntityRef) :
    (x ∈ lookupList (finalMapping om recs) a ↔
      ∃ r ∈ recs, r.source = a ∧ r.sink = x ∧
        (resolve w r.source).isSome ∧ (resolve w r.sink).isSome) ∧
    (pairMem (finalMapping om recs) a x ↔
      ∃ r ∈ recs, r.source = a ∧ r.sink = x ∧
        (resolve w r.source).isSome ∧ (resolve w r.sink).isSome) := by
  have haux : ∀ (recs : List Edge),
      (∀ r ∈ recs,
        alistFind om (r.source.kind, r.source.id) = resolve w r.source ∧
        alistFind om (r.sink.kind, r.sink.id) = resolve w r.sink) →
      ∀ (fm₀ : List (EntityRef × List EntityRef)),
      (x ∈ lookupList (recs.foldl (fun fm r =>
          match alistFind om (r.source.kind, r.source.id),
                alistFind om (r.sink.kind, r.sink.id) with
          | some s, some k => setdefaultAppend fm s k
          | _, _ => fm) fm₀) a ↔
        x ∈ lookupList fm₀ a ∨ ∃ r ∈ recs, r.source = a ∧ r.sink = x ∧
          (resolve w r.source).isSome ∧ (resolve w r.sink).isSome) ∧
      (pairMem (recs.foldl (fun fm r =>
          match alistFind om (r.source.kind, r.source.id),
                alistFind om (r.sink.kind, r.sink.id) with
          | some s, some k => setdefaultAppend fm s k
          | _, _ => fm) fm₀) a x ↔
        pairMem fm₀ a x ∨ ∃ r ∈ recs, r.source = a ∧ r.sink = x ∧
          (resolve w r.source).isSome ∧ (resolve w r.sink).isSome) := by
    intro recs
    induction recs with
    | nil => intro _ fm₀; simp
    | cons r rest ih =>
      intro hbr fm₀
      have hbr_r := hbr r (List.mem_cons_self _ _)
      have hbr' : ∀ q ∈ rest,
          alistFind om (q.source.kind, q.source.id) = resolve w q.source ∧
          alistFind om (q.sink.kind, q.sink.id) = resolve w q.sink :=
        fun q hq => hbr q (List.mem_cons_of_mem _ hq)
      rw [List.foldl_cons]
      cases hres1 : resolve w r.source with
      | none =>
        have hstep : (match alistFind om (r.source.kind, r.source.id),
            alistFind om (r.sink.kind, r.sink.id) with
          | some s, some k => setdefaultAppend fm₀ s k
          | _, _ => fm₀) = fm₀ := by
          rw [hbr_r.1, hres1]
        rw [hstep]
        obtain ⟨ihl, ihp⟩ := ih hbr' fm₀
        constructor
        · rw [ihl]
          constructor
          · rintro (h | h)
            · exact Or.inl h
            · exact Or.inr (by
                obtain ⟨q, hq, h⟩ := h
                exact ⟨q, List.mem_cons_of_mem _ hq, h⟩)
          · rintro (h | ⟨q, hq, hqa, hqx, hs1, hs2⟩)
            · exact Or.inl h
            · rcases List.mem_cons.1 hq with rfl | hq'
              · rw [hres1] at hs1; cases hs1
              · exact Or.inr ⟨q, hq', hqa, hqx, hs1, hs2⟩
        · rw [ihp]
          constructor
          · rintro (h | h)
            · exact Or.inl h
            · exact Or.inr (by
                obtain ⟨q, hq, h⟩ := h
                exact ⟨q, List.mem_cons_of_mem _ hq, h⟩)
          · rintro (h | ⟨q, hq, hqa, hqx, hs1, hs2⟩)
            · exact Or.inl h
            · rcases List.mem_cons.1 hq with rfl | hq'
              · rw [hres1] at hs1; cases hs1
              · exact Or.inr ⟨q, hq', hqa, hqx, hs1, hs2⟩
      | some s =>
        obtain ⟨rfl, _⟩ := resolve_some hres1
        cases hres2 : resolve w r.sink with
        | none =>
          have hstep : (match alistFind om (r.source.kind, r.source.id),
              alistFind om (r.sink.kind, r.sink.id) with
            | some s, some k => setdefaultAppend fm₀ s k
            | _, _ => fm₀) = fm₀ := by
            rw [hbr_r.1, hres1, hbr_r.2, hres2]
          rw [hstep]
          obtain ⟨ihl, ihp⟩ := ih hbr' fm₀
          constructor
          · rw [ihl]
            constructor
            · rintro (h | h)
              · exact Or.inl h
              · exact Or.inr (by
                  obtain ⟨q, hq, h⟩ := h
                  exact ⟨q, List.mem_cons_of_mem _ hq, h⟩)
            · rintro (h | ⟨q, hq, hqa, hqx, hs1, hs2⟩)
              · exact Or.inl h
              · rcases List.mem_cons.1 hq with rfl | hq'
                · rw [hres2] at hs2; cases hs2
                · exact Or.inr ⟨q, hq', hqa, hqx, hs1, hs2⟩
          · rw [ihp]
            constructor
            · rintro (h | h)
              · exact Or.inl h
              · exact Or.inr (by
                  obtain ⟨q, hq, h⟩ := h
                  exact ⟨q, List.mem_cons_of_mem _ hq, h⟩)
            · rintro (h | ⟨q, hq, hqa, hqx, hs1, hs2⟩)
              · exact Or.inl h
              · rcases List.mem_cons.1 hq with rfl | hq'
                · rw [hres2] at hs2; cases hs2
                · exact Or.inr ⟨q, hq', hqa, hqx, hs1, hs2⟩
        | some k =>
          obtain ⟨rfl, _⟩ := resolve_some hres2
          have hstep : (match alistFind om (r.source.kind, r.source.id),
              alistFind om (r.sink.kind, r.sink.id) with
            | some s, some k => setdefaultAppend fm₀ s k
            | _, _ => fm₀) = setdefaultAppend fm₀ r.source r.sink := by
            rw [hbr_r.1, hres1, hbr_r.2, hres2]
          rw [hstep]
          obtain ⟨ihl, ihp⟩ := ih hbr' (setdefaultAppend fm₀ r.source r.sink)
          constructor
          · rw [ihl, mem_lookupList_setdefaultAppend]
            constructor
            · rintro ((h | ⟨ha, hx⟩) | h)
              · exact Or.inl h
              · exact Or.inr ⟨r, List.mem_cons_self _ _, ha.symm, hx.symm,
                  by rw [hres1]; rfl, by rw [hres2]; rfl⟩
              · exact Or.inr (by
                  obtain ⟨q, hq, h⟩ := h
                  exact ⟨q, List.mem_cons_of_mem _ hq, h⟩)
            · rintro (h | ⟨q, hq, hqa, hqx, hs1, hs2⟩)
              · exact Or.inl (Or.inl h)
              · rcases List.mem_cons.1 hq with rfl | hq'
                · exact Or.inl (Or.inr ⟨hqa.symm, hqx.symm⟩)
                · exact Or.inr ⟨q, hq', hqa, hqx, hs1, hs2⟩
          · rw [ihp, pairMem_setdefaultAppend]
            constructor
            · rintro ((h | ⟨ha, hx⟩) | h)
              · exact Or.inl h
              · exact Or.inr ⟨r, List.mem_cons_self _ _, ha, hx.symm,
                  by rw [hres1]; rfl, by rw [hres2]; rfl⟩
              · exact Or.inr (by
                  obtain ⟨q, hq, h⟩ := h
                  exact ⟨q, List.mem_cons_of_mem _ hq, h⟩)
            · rintro (h | ⟨q, hq, hqa, hqx, hs1, hs2⟩)
              · exact Or.inl (Or.inl h)
              · rcases List.mem_cons.1 hq with rfl | hq'
                · exact Or.inl (Or.inr ⟨hqa, hqx.symm⟩)
                · exact Or.inr ⟨q, hq', hqa, hqx, hs1, hs2⟩
  have h := haux recs hbr []
  rw [finalMapping]
  constructor
  · rw [h.1]
    simp [lookupList]
  · rw [h.2]
    simp [pairMem]

/-- Characterization of the reverse index: `x` is listed as a source of
`e` iff some pair of the forward mapping maps `x` to a list containing
`e`. -/
theorem mem_lookupList_buildReverse (m : List (EntityRef × List EntityRef))
    (x e : EntityRef) :
    x ∈ lookupList (buildReverse m) e ↔ pairMem m x e := by
  have hinner : ∀ (vs : List EntityRef) (src : EntityRef)
      (rv₀ : List (EntityRef × List EntityRef)),
      x ∈ lookupList (vs.foldl
          (fun rv snk => setdefaultAppend rv snk src) rv₀) e ↔
        x ∈ lookupList rv₀ e ∨ (e ∈ vs ∧ x = src) := by
    intro vs src
    induction vs with
    | nil => intro rv₀; simp
    | cons v rest ih =>
      intro rv₀
      rw [List.foldl_cons, ih, mem_lookupList_setdefaultAppend]
      simp only [List.mem_cons]
      tauto
  have houter : ∀ (m : List (EntityRef × List EntityRef))
      (rv₀ : List (EntityRef × List EntityRef)),
      x ∈ lookupList (m.foldl (fun rev p => p.2.foldl
          (fun rv snk => setdefaultAppend rv snk p.1) rev) rv₀) e ↔
        x ∈ lookupList rv₀ e ∨ pairMem m x e := by
    intro m
    induction m with
    | nil => intro rv₀; simp [pairMem]
    | cons p rest ih =>
      intro rv₀
      rw [List.foldl_cons, ih, hinner, pairMem_cons]
      constructor
      · rintro ((h | ⟨he, rfl⟩) | h)
        · exact Or.inl h
        · exact Or.inr (Or.inl ⟨rfl, he⟩)
        · exact Or.inr (Or.inr h)
      · rintro (h | (⟨hp, he⟩ | h))
        · exact Or.inl (Or.inl h)
        · exact Or.inl (Or.inr ⟨he, hp.symm⟩)
        · exact Or.inr h
  rw [buildReverse, houter]
  simp [lookupList]

/-- Closed form of the uncached `sources` loop's yielded list, mirroring
`sinksUncached_fst` for the source endpoint. -/
theorem sourcesUncached_fst (w : World) (ft : Nat) (self : EntityRef) :
    (PipeElement.sourcesUncached w ft self).1
      = ((Fitting.sources w ft self).filter
          (fun f => f.source.kind ∈ w.registeredKinds)).map
        (fun f => if f.source ∈ w.alive then some f.source else none) := by
  unfold PipeElement.sourcesUncached
  generalize Fitting.sources w ft self = fs
  suffices h : ∀ (fs : List Edge) (res : List (Option EntityRef))
      (wa : World),
      (fs.foldl (fun acc f =>
        if f.source.kind ∈ w.registeredKinds then
          (acc.1 ++ [if f.source ∈ w.alive then some f.source else none],
           acc.2)
        else (acc.1, deleteEdge acc.2 f)) (res, wa)).1
        = res ++ ((fs.filter
            (fun f => f.source.kind ∈ w.registeredKinds)).map
            (fun f => if f.source ∈ w.alive then some f.source else none)) by
    simpa using h fs [] w
  intro fs
  induction fs with
  | nil => intro res wa; simp
  | cons f rest ih =>
    intro res wa
    by_cases hreg : f.source.kind ∈ w.registeredKinds
    · simp [List.foldl_cons, hreg, ih, List.filter_cons]
    · simp [List.foldl_cons, hreg, ih, List.filter_cons]

/-- Entity-set membership of the uncached `sources` answer. -/
theorem mem_some_sourcesUncached (w : World) (ft : Nat) (self x : EntityRef) :
    some x ∈ (PipeElement.sourcesUncached w ft self).1 ↔
      ∃ f ∈ Fitting.sources w ft self, resolve w f.source = some x := by
  rw [sourcesUncached_fst]
  simp only [List.mem_map, List.mem_filter, decide_eq_true_eq]
  constructor
  · rintro ⟨f, ⟨hf, hreg⟩, hx⟩
    by_cases hal : f.source ∈ w.alive
    · rw [if_pos hal] at hx
      refine ⟨f, hf, ?_⟩
      rw [resolve, if_pos ⟨hreg, hal⟩]
      exact hx
    · rw [if_neg hal] at hx
      cases hx
  · rintro ⟨f, hf, hres⟩
    have hc := hres
    rw [resolve] at hc
    by_cases hcond : f.source.kind ∈ w.registeredKinds ∧ f.source ∈ w.alive
    · rw [if_pos hcond] at hc
      exact ⟨f, ⟨hf, hcond.1⟩, by rw [if_pos hcond.2]; exact hc⟩
    · rw [if_neg hcond] at hc
      cases hc

/-- Endpoints of scanned records are present in `type_map`, so their
`object_map` lookup agrees with generic-foreign-key resolution. -/
theorem records_bridge (w : World) (ft : Nat) :
    ∀ r ∈ nsRecords w ft,
      alistFind (objectMapCounted w (typeMap (nsRecords w ft))).1
          (r.source.kind, r.source.id) = resolve w r.source ∧
      alistFind (objectMapCounted w (typeMap (nsRecords w ft))).1
          (r.sink.kind, r.sink.id) = resolve w r.sink := by
  intro r hr
  constructor
  · apply alistFind_objectMap_resolve
    apply mem_lookupList_pair
    exact (mem_lookupList_typeMap _ _ _).2 ⟨r, hr, Or.inr ⟨rfl, rfl⟩⟩
  · apply alistFind_objectMap_resolve
    apply mem_lookupList_pair
    exact (mem_lookupList_typeMap _ _ _).2 ⟨r, hr, Or.inl ⟨rfl, rfl⟩⟩

/-- C3: for a saved entity (existing row, registered kind, nonzero pk),
`sinks()` and `sources()` answered from an active cache built for the
namespace return the same entity sets as the uncached store queries with
endpoint resolution: an entity `x` is in the cached answer iff it is in
the uncached answer.  The comparison is of entity sets — a `none`
element of the uncached result is not an entity, and object identity and
list shape do not enter; the model identifies a resolved object with its
row reference. -/
theorem cache_equivalence (w : World) (ft : Nat) (e : EntityRef)
    (hkind : e.kind ∈ w.registeredKinds) (halive : e ∈ w.alive)
    (hid : e.id ≠ 0) :
    (∀ x, some x ∈ (PipeElement.sinks w
        (some (PipeMapping.make w ft)) ft e).1 ↔
      some x ∈ (PipeElement.sinksUncached w ft e).1) ∧
    (∀ x, some x ∈ (PipeElement.sources w
        (some (PipeMapping.make w ft)) ft e).1 ↔
      some x ∈ (PipeElement.sourcesUncached w ft e).1) := by
  have hbr := records_bridge w ft
  have hmap : Fitting.mapping w ft
      = finalMapping (objectMapCounted w (typeMap (nsRecords w ft))).1
          (nsRecords w ft) := rfl
  constructor
  · intro x
    have hcached :
        (PipeElement.sinks w (some (PipeMapping.make w ft)) ft e).1
          = (lookupList (Fitting.mapping w ft) e).map some := by
      simp [PipeElement.sinks, PipeMapping.make, PipeMapping.sinks, hid]
    rw [hcached, mem_some_sinksUncached]
    simp only [List.mem_map, Option.some.injEq, exists_eq_right]
    rw [hmap, (finalMapping_char w _ _ hbr e x).1]
    constructor
    · rintro ⟨r, hr, rfl, rfl, _, hs2⟩
      simp only [nsRecords, List.mem_filter, decide_eq_true_eq] at hr
      refine ⟨r, ?_, ?_⟩
      · simp only [Fitting.sinks, List.mem_filter, decide_eq_true_eq]
        exact ⟨hr.1, hr.2, trivial⟩
      · rcases Option.isSome_iff_exists.1 hs2 with ⟨v, hv⟩
        rcases resolve_some hv with ⟨rfl, hvv⟩
        exact hvv
    · rintro ⟨f, hf, hres⟩
      rcases resolve_some hres with ⟨rfl, _⟩
      simp only [Fitting.sinks, List.mem_filter, decide_eq_true_eq] at hf
      refine ⟨f, ?_, hf.2.2, rfl, ?_, by rw [hres]; rfl⟩
      · simp only [nsRecords, List.mem_filter, decide_eq_true_eq]
        exact ⟨hf.1, hf.2.1⟩
      · rw [hf.2.2, resolve, if_pos ⟨hkind, halive⟩]
        rfl
  · intro x
    have hcached :
        (PipeElement.sources w (some (PipeMapping.make w ft)) ft e).1
          = (lookupList (buildReverse (Fitting.mapping w ft)) e).map some := by
      simp [PipeElement.sources, PipeMapping.make, PipeMapping.sources, hid]
    rw [hcached, mem_some_sourcesUncached]
    simp only [List.mem_map, Option.some.injEq, exists_eq_right]
    rw [mem_lookupList_buildReverse, hmap,
      (finalMapping_char w _ _ hbr x e).2]
    constructor
    · rintro ⟨r, hr, rfl, rfl, hs1, _⟩
      simp only [nsRecords, List.mem_filter, decide_eq_true_eq] at hr
      refine ⟨r, ?_, ?_⟩
      · simp only [Fitting.sources, List.mem_filter, decide_eq_true_eq]
        exact ⟨hr.1, hr.2, trivial⟩
      · rcases Option.isSome_iff_exists.1 hs1 with ⟨v, hv⟩
        rcases resolve_some hv with ⟨rfl, hvv⟩
        exact hvv
    · rintro ⟨f, hf, hres⟩
      rcases resolve_some hres with ⟨rfl, _⟩
      simp only [Fitting.sources, List.mem_filter, decide_eq_true_eq] at hf
      refine ⟨f, ?_, rfl, hf.2.2, by rw [hres]; rfl, ?_⟩
      · simp only [nsRecords, List.mem_filter, decide_eq_true_eq]
        exact ⟨hf.1, hf.2.1⟩
      · rw [hf.2.2, resolve, if_pos ⟨hkind, halive⟩]
        rfl

/-- Witness for C3: in the concrete world with edge `eA→eB`, the cached
and uncached entity sets agree for `eA`. -/
theorem cache_equivalence_witness :
    (∀ x, some x ∈ (PipeElement.sinks wEdgeXY
        (some (PipeMapping.make wEdgeXY 1)) 1 eA).1 ↔
      some x ∈ (PipeElement.sinksUncached wEdgeXY 1 eA).1) ∧
    (∀ x, some x ∈ (PipeElement.sources wEdgeXY
        (some (PipeMapping.make wEdgeXY 1)) 1 eA).1 ↔
      some x ∈ (PipeElement.sourcesUncached wEdgeXY 1 eA).1) :=
  cache_equivalence wEdgeXY 1 eA (by decide) (by decide) (by decide)

theorem objectMapCounted_count (w : World) (tm : List (Nat × List Nat)) :
    (objectMapCounted w tm).2
      = 1 + (tm.filter (fun p => p.1 ∈ w.registeredKinds)).length := by
  have haux : ∀ (tm : List (Nat × List Nat))
      (acc : List ((Nat × Nat) × EntityRef) × Nat),
      (tm.foldl (fun acc p =>
        if p.1 ∈ w.registeredKinds then
          (acc.1 ++ (fetchKind w p.1 p.2).map (fun t => ((p.1, t.id), t)),
           acc.2 + 1)
        else acc) acc).2
        = acc.2 + (tm.filter (fun p => p.1 ∈ w.registeredKinds)).length := by
    intro tm
    induction tm with
    | nil => intro acc; simp
    | cons p rest ih =>
      intro acc
      rw [List.foldl_cons]
      by_cases hreg : p.1 ∈ w.registeredKinds
      · rw [if_pos hreg, ih]
        simp [List.filter_cons, hreg]
        omega
      · rw [if_neg hreg, ih]
        simp [List.filter_cons, hreg]
  rw [objectMapCounted, haux]

theorem mem_keys_setdefaultAppend {α β : Type} [DecidableEq α]
    (m : List (α × List β)) (k : α) (v : β) (k' : α) :
    k' ∈ (setdefaultAppend m k v).map Prod.fst ↔
      k' ∈ m.map Prod.fst ∨ k' = k := by
  induction m with
  | nil => simp [setdefaultAppend]
  | cons p rest ih =>
    obtain ⟨k₀, vs⟩ := p
    by_cases h : k₀ = k
    · subst h
      have hsda : setdefaultAppend ((k₀, vs) :: rest) k₀ v
          = (k₀, vs ++ [v]) :: rest := by
        simp [setdefaultAppend]
      rw [hsda]
      simp only [List.map_cons, List.mem_cons]
      constructor
      · rintro (rfl | h)
        · exact Or.inl (Or.inl rfl)
        · exact Or.inl (Or.inr h)
      · rintro ((rfl | h) | rfl)
        · exact Or.inl rfl
        · exact Or.inr h
        · exact Or.inl rfl
    · have hsda : setdefaultAppend ((k₀, vs) :: rest) k v
          = (k₀, vs) :: setdefaultAppend rest k v := by
        simp [setdefaultAppend, h]
      rw [hsda]
      simp only [List.map_cons, List.mem_cons, ih]
      tauto

theorem keys_nodup_setdefaultAppend {α β : Type} [DecidableEq α]
    (m : List (α × List β)) (k : α) (v : β)
    (h : (m.map Prod.fst).Nodup) :
    ((setdefaultAppend m k v).map Prod.fst).Nodup := by
  induction m with
  | nil => simp [setdefaultAppend]
  | cons p rest ih =>
    obtain ⟨k₀, vs⟩ := p
    simp only [List.map_cons, List.nodup_cons] at h
    by_cases hk : k₀ = k
    · subst hk
      have hsda : setdefaultAppend ((k₀, vs) :: rest) k₀ v
          = (k₀, vs ++ [v]) :: rest := by
        simp [setdefaultAppend]
      rw [hsda]
      simp only [List.map_cons, List.nodup_cons]
      exact h
    · have hsda : setdefaultAppend ((k₀, vs) :: rest) k v
          = (k₀, vs) :: setdefaultAppend rest k v := by
        simp [setdefaultAppend, hk]
      rw [hsda]
      simp only [List.map_cons, List.nodup_cons]
      refine ⟨?_, ih h.2⟩
      rw [mem_keys_setdefaultAppend]
      rintro (hmem | rfl)
      · exact h.1 hmem
      · exact hk rfl

/-- The keys of `type_map` are exactly the distinct endpoint kinds of the
scanned records. -/
theorem typeMap_keys (recs : List Edge) :
    ((typeMap recs).map Prod.fst).Nodup ∧
    (∀ k, k ∈ (typeMap recs).map Prod.fst ↔
      k ∈ recs.flatMap (fun r => [r.sink.kind, r.source.kind])) := by
  have haux : ∀ (recs : List Edge) (tm₀ : List (Nat × List Nat)),
      ((tm₀.map Prod.fst).Nodup →
        (((recs.foldl (fun tm r =>
          setdefaultAppend (setdefaultAppend tm r.sink.kind r.sink.id)
            r.source.kind r.source.id) tm₀)).map Prod.fst).Nodup) ∧
      (∀ k, k ∈ ((recs.foldl (fun tm r =>
          setdefaultAppend (setdefaultAppend tm r.sink.kind r.sink.id)
            r.source.kind r.source.id) tm₀)).map Prod.fst ↔
        k ∈ tm₀.map Prod.fst ∨
          k ∈ recs.flatMap (fun r => [r.sink.kind, r.source.kind])) := by
    intro recs
    induction recs with
    | nil => intro tm₀; simp
    | cons r rest ih =>
      intro tm₀
      rw [List.foldl_cons]
      constructor
      · intro h
        exact (ih _).1 (keys_nodup_setdefaultAppend _ _ _
          (keys_nodup_setdefaultAppend _ _ _ h))
      · intro k
        rw [(ih _).2 k, mem_keys_setdefaultAppend, mem_keys_setdefaultAppend]
        simp only [List.flatMap_cons, List.mem_append, List.mem_cons,
          List.mem_singleton, List.not_mem_nil, or_false]
        tauto
  refine ⟨(haux recs []).1 (by simp), ?_⟩
  intro k
  rw [typeMap, (haux recs []).2 k]
  simp

/-- C8: materializing the namespace issues exactly `1 + K` backend fetch
queries when the `K` distinct endpoint kinds all still resolve: one
edge-table scan (iterated twice, but the queryset caches its result)
plus one batched fetch per distinct kind — independent of the number of
edges.  Resolving kind ids to classes goes through the content-type
registry (the spec's TypeRegistry) and is not a backend fetch. -/
theorem mapping_query_count (w : World) (ft : Nat)
    (hreg : ∀ r ∈ nsRecords w ft,
      r.source.kind ∈ w.registeredKinds ∧ r.sink.kind ∈ w.registeredKinds) :
    (Fitting.mappingCounted w ft).2
      = 1 + ((nsRecords w ft).flatMap
          (fun r => [r.sink.kind, r.source.kind])).toFinset.card := by
  have hc : (Fitting.mappingCounted w ft).2
      = (objectMapCounted w (typeMap (nsRecords w ft))).2 := rfl
  rw [hc, objectMapCounted_count]
  have hall : (typeMap (nsRecords w ft)).filter
      (fun p => p.1 ∈ w.registeredKinds) = typeMap (nsRecords w ft) := by
    apply List.filter_eq_self.2
    intro p hp
    have hk : p.1 ∈ (typeMap (nsRecords w ft)).map Prod.fst :=
      List.mem_map_of_mem _ hp
    rw [(typeMap_keys _).2 p.1] at hk
    simp only [List.mem_flatMap, List.mem_cons, List.mem_singleton,
      List.not_mem_nil, or_false] at hk
    obtain ⟨r, hr, hk⟩ := hk
    rcases hk with h | h
    · rw [h]; simpa using (hreg r hr).2
    · rw [h]; simpa using (hreg r hr).1
  rw [hall]
  have hnodup := (typeMap_keys (nsRecords w ft)).1
  have hset : ((typeMap (nsRecords w ft)).map Prod.fst).toFinset
      = ((nsRecords w ft).flatMap
          (fun r => [r.sink.kind, r.source.kind])).toFinset := by
    ext k
    simp only [List.mem_toFinset]
    exact (typeMap_keys _).2 k
  rw [show (typeMap (nsRecords w ft)).length
      = ((typeMap (nsRecords w ft)).map Prod.fst).length from
      (List.length_map _ _).symm,
    ← List.toFinset_card_of_nodup hnodup, hset]

/-- Witness for C8: one edge over one kind yields `1 + 1 = 2` fetches. -/
theorem mapping_query_count_witness :
    (Fitting.mappingCounted wEdgeXY 1).2
      = 1 + ((nsRecords wEdgeXY 1).flatMap
          (fun r => [r.sink.kind, r.source.kind])).toFinset.card :=
  mapping_query_count wEdgeXY 1 (by decide)

end Models
